import Mathlib

/-!
Verification development for the scribe-server static file server.

The embedding models the `server` package: `Config` (config.go), and
`Server.ServeHTTP`, `Server.tryServeFile`, `getContentType` (server.go).
Paths are Unix-style strings; Go's `path/filepath` primitives
(`Clean`, `Ext`, `Join`) are modelled at the character-list level so that
their algebraic properties can be proved.  The filesystem and the HTTP
response writer are modelled as explicit pure values: a `FileSystem` gives
the result of `os.Stat`, `os.Open` and `io.Copy` at every path, and a
`Response` records the status code, the explicitly set Content-Type
header, and the body bytes written.
-/

namespace Scribe

/-- A path segment: the characters between two separators. -/
abbrev Seg := List Char

/-- Split a character list on the separator character, exactly the way
Go's path cleaning scans elements: `splitSegs "a//b" = [[a],[],[b]]`. -/
def splitSegs : List Char → List Seg
  | [] => [[]]
  | c :: cs =>
    if c = '/' then [] :: splitSegs cs
    else
      match splitSegs cs with
      | [] => [[c]]
      | s :: ss => (c :: s) :: ss

/-- One step of Go `filepath.Clean`'s element processing, on a stack of
already-accepted segments (head = most recent).  Empty and `.` segments are
dropped; `..` pops a normal segment, is dropped at the root of a rooted
path, and is kept when there is nothing left to pop in a relative path. -/
def cstep (rooted : Bool) (acc : List Seg) (s : Seg) : List Seg :=
  if s = [] ∨ s = ['.'] then acc
  else if s = ['.', '.'] then
    match acc with
    | [] => if rooted then [] else [s]
    | t :: acc2 => if t = ['.', '.'] then s :: acc else acc2
  else s :: acc

/-- Fold `cstep` over a list of segments. -/
def cfold (rooted : Bool) (acc : List Seg) : List Seg → List Seg
  | [] => acc
  | s :: ss => cfold rooted (cstep rooted acc s) ss

/-- The cleaned segment list of a character path (in path order). -/
def cleanSegsCore (rooted : Bool) (cs : List Char) : List Seg :=
  (cfold rooted [] (splitSegs cs)).reverse

/-- Join segments with `/` separators. -/
def joinChars : List Seg → List Char
  | [] => []
  | [s] => s
  | s :: ss => s ++ '/' :: joinChars ss

/-- Render a cleaned segment list back to a character path. -/
def renderClean (rooted : Bool) (ss : List Seg) : List Char :=
  if rooted then '/' :: joinChars ss
  else if ss = [] then ['.'] else joinChars ss

/-- Whether a string starts with the path separator. -/
def startsSlash (s : String) : Bool := s.toList.head? = some '/'

/-- Go `filepath.Clean` on Unix: lexical normalization of a path. -/
def clean (p : String) : String :=
  if p = "" then "."
  else String.mk (renderClean (startsSlash p) (cleanSegsCore (startsSlash p) p.toList))

/-- The cleaned segment list of a string path (used to state containment
of one path inside another). -/
def cleanSegsOf (s : String) : List Seg :=
  cleanSegsCore (startsSlash s) s.toList

/-- Helper for `fpExt`: scans the reversed character list; returns the
extension (in path order) as soon as a dot is found, and nothing once a
separator is crossed. -/
def extRevAux (acc : List Char) : List Char → List Char
  | [] => []
  | c :: cs =>
    if c = '/' then []
    else if c = '.' then '.' :: acc
    else extRevAux (c :: acc) cs

/-- Go `filepath.Ext`: the suffix starting at the final dot of the final
path element; empty if there is none. -/
def fpExt (p : String) : String := String.mk (extRevAux [] p.toList.reverse)

/-- Go `filepath.Join` on two elements: empty elements are dropped and the
result is cleaned. -/
def fpJoin (a b : String) : String :=
  if a = "" ∧ b = "" then ""
  else if a = "" then clean b
  else if b = "" then clean a
  else clean (a ++ "/" ++ b)

/-- Go `strings.HasSuffix(s, "/")`. -/
def hasTrailingSlash (s : String) : Bool := s.toList.getLast? = some '/'

/-- Go `path[:len(path)-1]` for a path that ends in the one-byte `/`. -/
def chopLast (s : String) : String := String.mk s.toList.dropLast

/-- `Config` from config.go.  The not-found handler (`func(string) []byte`)
is modelled as an optional function from the request path to body bytes. -/
structure Config where
  rootDir : String
  addHtmlExtension : Bool
  enableLogging : Bool
  notFoundHandler : Option (String → String)

/-- Result of `os.Stat` at a path: success (carrying `IsDir()`),
non-existence, or any other filesystem error (permission denied, ...). -/
inductive StatResult where
  | ok (isDir : Bool)
  | notExist
  | otherErr
deriving DecidableEq, Repr

/-- A pure model of the disk and the response stream: what `os.Stat`,
`os.Open` and `io.Copy` return at every path.  `contents` is the body
delivered when the copy succeeds; `writtenOnErr` is whatever was written
before a mid-stream failure. -/
structure FileSystem where
  stat : String → StatResult
  openOk : String → Bool
  copyOk : String → Bool
  contents : String → String
  writtenOnErr : String → String

/-- An HTTP response as observed by the client: status code, the
explicitly set Content-Type header (if any), and the body bytes. -/
structure Response where
  status : Nat
  contentType : Option String
  body : String
deriving DecidableEq, Repr

/-- One line written to the server's logger. -/
inductive LogEvent where
  | handling (p : String)
  | openErr (p : String)
  | serving (p : String)
  | copyErr (p : String)
  | notFound (p : String)
deriving DecidableEq, Repr

/-- The logger writes to stdout when logging is enabled and to
`io.Discard` otherwise (`NewServerWithConfig`). -/
def emit (cfg : Config) (e : LogEvent) : List LogEvent :=
  if cfg.enableLogging then [e] else []

/-- Go `strings.ToLower` as it acts on extensions: per-character
lowercasing (`Char.toLower` lowercases ASCII letters; Go additionally
lowercases non-ASCII letters, but no such character can produce a match
against the all-ASCII table keys, so the two agree on every input that
matters to `getContentType`). -/
def lowerStr (s : String) : String := String.mk (s.toList.map Char.toLower)

/-- `getContentType` from server.go: MIME type from the (lowercased) file
extension; empty string when unrecognized. -/
def getContentType (ext : String) : String :=
  let e := lowerStr ext
  if e = ".html" ∨ e = ".htm" then "text/html"
  else if e = ".css" then "text/css"
  else if e = ".js" then "application/javascript"
  else if e = ".json" then "application/json"
  else if e = ".png" then "image/png"
  else if e = ".jpg" ∨ e = ".jpeg" then "image/jpeg"
  else if e = ".gif" then "image/gif"
  else if e = ".svg" then "image/svg+xml"
  else if e = ".xml" then "application/xml"
  else if e = ".pdf" then "application/pdf"
  else if e = ".txt" then "text/plain"
  else ""

/-- The 200 response written by `tryServeFile` once the file is open:
Content-Type set only when the extension is recognized, body the file
bytes (or the partial bytes if the copy fails mid-stream). -/
def renderFound (fs : FileSystem) (p : String) : Response :=
  let ct := getContentType (fpExt p)
  { status := 200
    contentType := if ct = "" then none else some ct
    body := if fs.copyOk p then fs.contents p else fs.writtenOnErr p }

/-- `Server.tryServeFile`: stat the path; on any stat error or a
directory, fail silently; on open error, log and fail; otherwise serve
(set content type, copy, log a copy error but still report success).
Returns the response written (if any) and the log lines produced. -/
def tryServeFile (cfg : Config) (fs : FileSystem) (fullPath : String) :
    Option Response × List LogEvent :=
  match fs.stat fullPath with
  | .ok isDir =>
    if isDir then (none, [])
    else if fs.openOk fullPath then
      if fs.copyOk fullPath then
        (some (renderFound fs fullPath), emit cfg (.serving fullPath))
      else
        (some (renderFound fs fullPath),
          emit cfg (.serving fullPath) ++ emit cfg (.copyErr fullPath))
    else (none, emit cfg (.openErr fullPath))
  | .notExist => (none, [])
  | .otherErr => (none, [])

/-- The request path after `filepath.Clean` and the root rewrite
(`ServeHTTP` lines: clean, then `/` becomes `/index.html`). -/
def cleanedPath (raw : String) : String :=
  let p := clean raw
  if p = "/" then "/index.html" else p

/-- The request path additionally after the trailing-slash strip
(`len(path) > 1 && strings.HasSuffix(path, "/")`). -/
def trimmedPath (raw : String) : String :=
  let p := cleanedPath raw
  if 1 < p.toList.length ∧ hasTrailingSlash p then chopLast p else p

/-- Candidate A: the trimmed path joined onto the root directory. -/
def candA (cfg : Config) (raw : String) : String :=
  fpJoin cfg.rootDir (trimmedPath raw)

/-- Candidate B: candidate A with `.html` appended. -/
def candB (cfg : Config) (raw : String) : String := candA cfg raw ++ ".html"

/-- Candidate C: `index.html` joined under candidate A. -/
def candC (cfg : Config) (raw : String) : String :=
  fpJoin (candA cfg raw) "index.html"

/-- The guard on candidate B: extension appending enabled and the
(cleaned, trimmed) path has no extension. -/
def condB (cfg : Config) (raw : String) : Bool :=
  cfg.addHtmlExtension && fpExt (trimmedPath raw) == ""

/-- The second resolution attempt, taken only under `condB`. -/
def step2 (cfg : Config) (fs : FileSystem) (raw : String) :
    Option Response × List LogEvent :=
  if condB cfg raw then tryServeFile cfg fs (candB cfg raw) else (none, [])

/-- The third resolution attempt, taken only when the original raw
request path ends in `/`. -/
def step3 (cfg : Config) (fs : FileSystem) (raw : String) :
    Option Response × List LogEvent :=
  if hasTrailingSlash raw then tryServeFile cfg fs (candC cfg raw) else (none, [])

/-- The candidates stat-ed when resolution reaches candidate B's turn. -/
def probesUpToB (cfg : Config) (raw : String) : List String :=
  [candA cfg raw] ++ (if condB cfg raw then [candB cfg raw] else [])

/-- The candidates stat-ed when resolution reaches candidate C's turn. -/
def probesAll (cfg : Config) (raw : String) : List String :=
  probesUpToB cfg raw ++ (if hasTrailingSlash raw then [candC cfg raw] else [])

/-- The 404 response of `ServeHTTP`: the custom handler's bytes when one
is configured (invoked on the trimmed path, no Content-Type set),
otherwise Go's `http.NotFound` output. -/
def notFoundResponse (cfg : Config) (raw : String) : Response :=
  match cfg.notFoundHandler with
  | some h => { status := 404, contentType := none, body := h (trimmedPath raw) }
  | none => { status := 404, contentType := some "text/plain; charset=utf-8",
              body := "404 page not found\n" }

/-- Everything observable about one request: the response written, the
log lines, and the candidate paths probed on disk, in order. -/
structure Outcome where
  response : Response
  log : List LogEvent
  probes : List String
deriving Repr

/-- `Server.ServeHTTP`: clean the path, rewrite `/` to `/index.html`,
strip a trailing slash, then try candidate A, candidate B (when enabled
and extension-free), and candidate C (when the original raw path ended in
`/`), serving the first that succeeds, else the 404 path. -/
def serveHTTPT (cfg : Config) (fs : FileSystem) (raw : String) : Outcome :=
  let lg0 := emit cfg (.handling (cleanedPath raw))
  let t1 := tryServeFile cfg fs (candA cfg raw)
  let t2 := step2 cfg fs raw
  let t3 := step3 cfg fs raw
  match t1.1, t2.1, t3.1 with
  | some r, _, _ => ⟨r, lg0 ++ t1.2, [candA cfg raw]⟩
  | none, some r, _ => ⟨r, lg0 ++ t1.2 ++ t2.2, probesUpToB cfg raw⟩
  | none, none, some r => ⟨r, lg0 ++ t1.2 ++ t2.2 ++ t3.2, probesAll cfg raw⟩
  | none, none, none =>
    ⟨notFoundResponse cfg raw,
      lg0 ++ t1.2 ++ t2.2 ++ t3.2 ++ emit cfg (.notFound (trimmedPath raw)),
      probesAll cfg raw⟩

/-- The response a request produces. -/
def serveHTTP (cfg : Config) (fs : FileSystem) (raw : String) : Response :=
  (serveHTTPT cfg fs raw).response

/-- A candidate that resolution can serve: `os.Stat` reports an existing
regular (non-directory) file and `os.Open` succeeds. -/
def servable (fs : FileSystem) (p : String) : Bool :=
  (fs.stat p == .ok false) && fs.openOk p

/-- The resolution order exactly as claim C1 states it: candidate A, then
candidate B guarded by the extension-append flag and extension-freeness,
then candidate C with no guard at all (the claim text gives none). -/
def resolveClaimC1 (cfg : Config) (fs : FileSystem) (raw : String) : Option String :=
  if servable fs (candA cfg raw) then some (candA cfg raw)
  else if condB cfg raw && servable fs (candB cfg raw) then some (candB cfg raw)
  else if servable fs (candC cfg raw) then some (candC cfg raw)
  else none

/-- The resolution order of claim C1 amended: candidate C is additionally
guarded by the original raw request path ending in `/`. -/
def resolveAmendedC1 (cfg : Config) (fs : FileSystem) (raw : String) : Option String :=
  if servable fs (candA cfg raw) then some (candA cfg raw)
  else if condB cfg raw && servable fs (candB cfg raw) then some (candB cfg raw)
  else if hasTrailingSlash raw && servable fs (candC cfg raw) then some (candC cfg raw)
  else none

/-- The response a resolution outcome dictates: the served file rendered
as in `tryServeFile`, or the 404 path. -/
def renderResolution (cfg : Config) (fs : FileSystem) (raw : String) :
    Option String → Response
  | some p => renderFound fs p
  | none => notFoundResponse cfg raw

/-- Configuration for the nested-directory scenario: root `/root`,
extension appending on, logging off, no custom 404 handler. -/
def cfgNested : Config :=
  { rootDir := "/root", addHtmlExtension := true, enableLogging := false,
    notFoundHandler := none }

/-- Disk state for the nested-directory scenario: only
`/root/nested/index.html` exists as a regular file (and `/root/nested` as
a directory); no `/root/nested.html`. -/
def fsNested : FileSystem :=
  { stat := fun p =>
      if p = "/root/nested/index.html" then .ok false
      else if p = "/root/nested" then .ok true
      else .notExist
    openOk := fun _ => true
    copyOk := fun _ => true
    contents := fun p => if p = "/root/nested/index.html" then "Nested Page" else ""
    writtenOnErr := fun _ => "" }

/-- The filesystem with the stat answer at one path replaced. -/
def FileSystem.withStat (fs : FileSystem) (p : String) (v : StatResult) : FileSystem :=
  { fs with stat := fun q => if q = p then v else fs.stat q }

/-- The custom 404 handler used in the server tests. -/
def customNotFound : String → String :=
  fun p => "Custom 404: " ++ p ++ " not found"

/-- Configuration with a custom 404 handler (root `/root`, extension
appending off, logging off). -/
def cfgCustom404 : Config :=
  { rootDir := "/root", addHtmlExtension := false, enableLogging := false,
    notFoundHandler := some customNotFound }

/-- An empty disk: everything is absent. -/
def fsEmpty : FileSystem :=
  { stat := fun _ => .notExist
    openOk := fun _ => true
    copyOk := fun _ => true
    contents := fun _ => ""
    writtenOnErr := fun _ => "" }

/-- Configuration with logging enabled (root `/root`, extension appending
on, no custom 404 handler). -/
def cfgLog : Config :=
  { rootDir := "/root", addHtmlExtension := true, enableLogging := true,
    notFoundHandler := none }

/-- A disk on which stat-ing `/root/x` fails with a non-notExist error
(permission denied, say) and everything else is absent. -/
def fsStatErr : FileSystem :=
  { stat := fun p => if p = "/root/x" then .otherErr else .notExist
    openOk := fun _ => true
    copyOk := fun _ => true
    contents := fun _ => ""
    writtenOnErr := fun _ => "" }

/-- The nested-directory disk with every copy failing mid-stream. -/
def fsNestedCopyFail : FileSystem :=
  { fsNested with copyOk := fun _ => false }

/-- The content-type table of spec section 6, as an association list from
lowercased extension to MIME type. -/
def mimeTable : List (String × String) :=
  [(".html", "text/html"), (".htm", "text/html"), (".css", "text/css"),
   (".js", "application/javascript"), (".json", "application/json"),
   (".png", "image/png"), (".jpg", "image/jpeg"), (".jpeg", "image/jpeg"),
   (".gif", "image/gif"), (".svg", "image/svg+xml"), (".xml", "application/xml"),
   (".pdf", "application/pdf"), (".txt", "text/plain")]

/-- Spec-side content-type assignment: lowercase the extension, look it
up in the table, empty (no header) when absent. -/
def mimeLookup (e : String) : String :=
  match mimeTable.find? (fun kv => lowerStr e == kv.1) with
  | some kv => kv.2
  | none => ""

/-- A normal path segment: nonempty, not `.`, not `..`, and free of the
separator.  Every segment of a cleaned rooted path is of this form. -/
def goodSeg (s : Seg) : Prop :=
  s ≠ [] ∧ s ≠ ['.'] ∧ s ≠ ['.', '.'] ∧ '/' ∉ s

instance (s : Seg) : Decidable (goodSeg s) := by
  unfold goodSeg
  infer_instance

/-- Shape invariant of the `cfold` stack (head = most recently accepted
segment): normal segments on top of a layer of `..` segments, the latter
empty for rooted paths. -/
def stackShape (rooted : Bool) (acc : List Seg) : Prop :=
  ∃ gs ds, acc = gs ++ ds ∧ (∀ s ∈ gs, goodSeg s) ∧
    (∀ s ∈ ds, s = ['.', '.']) ∧ (rooted = true → ds = [])

/-- Shape of a cleaned segment list in path order: leading `..` segments
(none for rooted paths) followed by normal segments. -/
def pathShape (rooted : Bool) (ts : List Seg) : Prop :=
  ∃ ds gs, ts = ds ++ gs ∧ (∀ s ∈ ds, s = ['.', '.']) ∧
    (∀ s ∈ gs, goodSeg s) ∧ (rooted = true → ds = [])

/-- Append characters to the last segment of a list. -/
def appendLast (ext : List Char) : List Seg → List Seg
  | [] => []
  | [s] => [s ++ ext]
  | s :: ss => s :: appendLast ext ss

/-- `c` lies within the root `r`: after cleaning, the segments of `c`
extend the segments of `r`. -/
def withinRoot (r c : String) : Prop :=
  ∃ rest, cleanSegsOf c = cleanSegsOf r ++ rest

/-- A disk holding only `/root/about.html` as a regular file. -/
def fsAbout : FileSystem :=
  { stat := fun p => if p = "/root/about.html" then .ok false else .notExist
    openOk := fun _ => true
    copyOk := fun _ => true
    contents := fun p => if p = "/root/about.html" then "About Page" else ""
    writtenOnErr := fun _ => "" }

/-- A disk holding one stylesheet with an upper-case extension. -/
def fsCss : FileSystem :=
  { stat := fun p => if p = "/style.CSS" then .ok false else .notExist
    openOk := fun _ => true
    copyOk := fun _ => true
    contents := fun _ => "css body"
    writtenOnErr := fun _ => "" }

end Scribe

namespace Scribe

/-- Splitting never yields the empty list of segments. -/
theorem splitSegs_ne_nil (cs : List Char) : splitSegs cs ≠ [] := by
  induction cs with
  | nil => simp [splitSegs]
  | cons c cs ih =>
    unfold splitSegs
    by_cases h : c = '/'
    · simp [h]
    · simp only [if_neg h]
      cases hs : splitSegs cs <;> simp

/-- Splitting distributes over concatenation at a separator. -/
theorem splitSegs_append_sep (xs ys : List Char) :
    splitSegs (xs ++ '/' :: ys) = splitSegs xs ++ splitSegs ys := by
  induction xs with
  | nil => simp [splitSegs]
  | cons c xs ih =>
    by_cases h : c = '/'
    · subst h
      simp only [List.cons_append]
      unfold splitSegs
      simp [ih]
      cases ys <;> simp [splitSegs]
    · simp only [List.cons_append]
      unfold splitSegs
      simp only [if_neg h]
      rw [ih]
      cases hs : splitSegs xs with
      | nil => exact absurd hs (splitSegs_ne_nil xs)
      | cons s ss =>
        simp
        cases ys <;> simp [splitSegs]

/-- Folding the cleaner distributes over segment-list concatenation. -/
theorem cfold_append (r : Bool) (xs ys acc : List Seg) :
    cfold r acc (xs ++ ys) = cfold r (cfold r acc xs) ys := by
  induction xs generalizing acc with
  | nil => rfl
  | cons s xs ih => simp [cfold, ih]

/-- A normal segment is pushed as-is by one cleaning step. -/
theorem cstep_good (r : Bool) (acc : List Seg) (s : Seg) (h : goodSeg s) :
    cstep r acc s = s :: acc := by
  obtain ⟨h1, h2, h3, _⟩ := h
  unfold cstep
  simp [h1, h2, h3]

/-- A run of normal segments is accumulated in reverse on the stack. -/
theorem cfold_good (r : Bool) (ss : List Seg) (acc : List Seg)
    (h : ∀ s ∈ ss, goodSeg s) :
    cfold r acc ss = ss.reverse ++ acc := by
  induction ss generalizing acc with
  | nil => simp [cfold]
  | cons s ss ih =>
    have hstep : cfold r acc (s :: ss) = cfold r (cstep r acc s) ss := rfl
    rw [hstep, cstep_good r acc s (h s (by simp)),
      ih (s :: acc) (fun t ht => h t (by simp [ht]))]
    simp

/-- Segments produced by splitting contain no separator. -/
theorem mem_splitSegs_no_slash (cs : List Char) :
    ∀ s ∈ splitSegs cs, '/' ∉ s := by
  induction cs with
  | nil =>
    intro s hs
    simp [splitSegs] at hs
    simp [hs]
  | cons c cs ih =>
    intro s hs
    unfold splitSegs at hs
    by_cases h : c = '/'
    · simp [h] at hs
      rcases hs with h0 | h0
      · simp [h0]
      · exact ih s h0
    · simp only [if_neg h] at hs
      cases hcs : splitSegs cs with
      | nil => exact absurd hcs (splitSegs_ne_nil cs)
      | cons s0 ss0 =>
        rw [hcs] at hs
        simp at hs
        rcases hs with h0 | h0
        · subst h0
          intro hmem
          rcases List.mem_cons.mp hmem with h1 | h1
          · exact h h1.symm
          · exact ih s0 (by simp [hcs]) h1
        · exact ih s (by simp [hcs, h0])

/-- Joining nonempty segments yields a nonempty character list. -/
theorem joinChars_ne_nil (ss : List Seg) (h : ∀ s ∈ ss, s ≠ [])
    (hne : ss ≠ []) : joinChars ss ≠ [] := by
  cases ss with
  | nil => exact absurd rfl hne
  | cons s ss =>
    cases ss with
    | nil => exact h s (by simp)
    | cons s2 ss2 => simp [joinChars]

/-- A separator-free nonempty character list splits into itself. -/
theorem splitSegs_single (s : Seg) (hne : s ≠ []) (hns : '/' ∉ s) :
    splitSegs s = [s] := by
  induction s with
  | nil => exact absurd rfl hne
  | cons c cs ih =>
    have hc : c ≠ '/' := by
      intro h
      exact hns (by simp [h])
    unfold splitSegs
    simp only [if_neg hc]
    cases hcs : cs with
    | nil => simp [hcs, splitSegs]
    | cons c2 cs2 =>
      have hrec : splitSegs cs = [cs] := by
        refine ih ?_ ?_
        · simp [hcs]
        · intro hm
          exact hns (by simp [hm])
      rw [hcs] at hrec
      rw [hrec]

/-- Splitting inverts joining on lists of separator-free nonempty
segments. -/
theorem splitSegs_joinChars (ss : List Seg)
    (h : ∀ s ∈ ss, s ≠ [] ∧ '/' ∉ s) (hne : ss ≠ []) :
    splitSegs (joinChars ss) = ss := by
  induction ss with
  | nil => exact absurd rfl hne
  | cons s ss ih =>
    cases ss with
    | nil =>
      simp only [joinChars]
      exact splitSegs_single s (h s (by simp)).1 (h s (by simp)).2
    | cons s2 ss2 =>
      have hj : joinChars (s :: s2 :: ss2) = s ++ '/' :: joinChars (s2 :: ss2) := rfl
      rw [hj, splitSegs_append_sep,
        splitSegs_single s (h s (by simp)).1 (h s (by simp)).2,
        ih (fun t ht => h t (by simp [ht])) (by simp)]
      rfl

/-- One cleaning step preserves the stack shape, given the incoming
segment is separator-free. -/
theorem cstep_shape (r : Bool) (acc : List Seg) (s : Seg)
    (hs : '/' ∉ s) (h : stackShape r acc) : stackShape r (cstep r acc s) := by
  obtain ⟨gs, ds, hacc, hgs, hds, hr⟩ := h
  by_cases h1 : s = [] ∨ s = ['.']
  · unfold cstep
    rw [if_pos h1]
    exact ⟨gs, ds, hacc, hgs, hds, hr⟩
  · by_cases h2 : s = ['.', '.']
    · unfold cstep
      rw [if_neg h1, if_pos h2]
      cases gs with
      | nil =>
        simp only [List.nil_append] at hacc
        cases hds0 : ds with
        | nil =>
          rw [hacc, hds0]
          cases r with
          | true => exact ⟨[], [], by simp, by simp, by simp, fun _ => rfl⟩
          | false =>
            refine ⟨[], [s], by simp, by simp, ?_, by simp⟩
            intro t ht
            simp at ht
            rw [ht, h2]
        | cons d ds2 =>
          rw [hacc, hds0]
          have hd : d = ['.', '.'] := hds d (by simp [hds0])
          simp only [hd, if_pos rfl]
          refine ⟨[], s :: ['.', '.'] :: ds2, by simp, by simp, ?_, ?_⟩
          · intro t ht
            rcases List.mem_cons.mp ht with h0 | h0
            · rw [h0, h2]
            · rcases List.mem_cons.mp h0 with h3 | h3
              · exact h3
              · exact hds t (by simp [hds0, h3])
          · intro hrt
            exact absurd (hr hrt) (by simp [hds0])
      | cons g gs2 =>
        rw [hacc]
        simp only [List.cons_append]
        have hg : g ≠ ['.', '.'] := (hgs g (by simp)).2.2.1
        simp only [if_neg hg]
        exact ⟨gs2, ds, rfl, fun t ht => hgs t (by simp [ht]), hds, hr⟩
    · have hg : goodSeg s := ⟨(not_or.mp h1).1, (not_or.mp h1).2, h2, hs⟩
      rw [cstep_good r acc s hg, hacc]
      refine ⟨s :: gs, ds, rfl, ?_, hds, hr⟩
      intro t ht
      rcases List.mem_cons.mp ht with h0 | h0
      · rw [h0]; exact hg
      · exact hgs t h0

/-- Folding the cleaner preserves the stack shape. -/
theorem cfold_shape (r : Bool) (ss : List Seg) (acc : List Seg)
    (hss : ∀ s ∈ ss, '/' ∉ s) (h : stackShape r acc) :
    stackShape r (cfold r acc ss) := by
  induction ss generalizing acc with
  | nil => exact h
  | cons s ss ih =>
    exact ih (cstep r acc s) (fun t ht => hss t (by simp [ht]))
      (cstep_shape r acc s (hss s (by simp)) h)

/-- Reversing a well-shaped stack gives a well-shaped path. -/
theorem stackShape_reverse (r : Bool) (acc : List Seg)
    (h : stackShape r acc) : pathShape r acc.reverse := by
  obtain ⟨gs, ds, hacc, hgs, hds, hr⟩ := h
  refine ⟨ds.reverse, gs.reverse, ?_, ?_, ?_, ?_⟩
  · rw [hacc, List.reverse_append]
  · intro s hs; exact hds s (List.mem_reverse.mp hs)
  · intro s hs; exact hgs s (List.mem_reverse.mp hs)
  · intro hrt; simp [hr hrt]

/-- The cleaned segment list of any character path is well-shaped. -/
theorem pathShape_cleanSegsCore (r : Bool) (cs : List Char) :
    pathShape r (cleanSegsCore r cs) := by
  unfold cleanSegsCore
  exact stackShape_reverse r _ (cfold_shape r _ []
    (mem_splitSegs_no_slash cs)
    ⟨[], [], rfl, by simp, by simp, fun _ => rfl⟩)

/-- Every segment of a well-shaped path is nonempty and separator-free. -/
theorem pathShape_elem (r : Bool) (ts : List Seg) (h : pathShape r ts) :
    ∀ s ∈ ts, s ≠ [] ∧ '/' ∉ s := by
  obtain ⟨ds, gs, hts, hds, hgs, _⟩ := h
  intro s hs
  rw [hts] at hs
  rcases List.mem_append.mp hs with h0 | h0
  · rw [hds s h0]
    exact ⟨by simp, by simp⟩
  · exact ⟨(hgs s h0).1, (hgs s h0).2.2.2⟩

/-- Every segment of a well-shaped rooted path is a normal segment. -/
theorem pathShape_rooted_good (ts : List Seg) (h : pathShape true ts) :
    ∀ s ∈ ts, goodSeg s := by
  obtain ⟨ds, gs, hts, hds, hgs, hr⟩ := h
  rw [hr rfl] at hts
  simp only [List.nil_append] at hts
  intro s hs
  exact hgs s (by rw [← hts]; exact hs)

/-- The head of a join is the head of the first segment. -/
theorem head_joinChars (s : Seg) (ss : List Seg) (hne : s ≠ []) :
    (joinChars (s :: ss)).head? = s.head? := by
  cases ss with
  | nil => rfl
  | cons s2 ss2 =>
    show (s ++ '/' :: joinChars (s2 :: ss2)).head? = s.head?
    cases s with
    | nil => exact absurd rfl hne
    | cons c cs => rfl

/-- The rendering of a well-shaped path is nonempty. -/
theorem render_ne_nil (r : Bool) (ts : List Seg) (h : pathShape r ts) :
    renderClean r ts ≠ [] := by
  unfold renderClean
  cases r with
  | true => simp
  | false =>
    by_cases hts : ts = []
    · simp [hts]
    · simp only [Bool.false_eq_true, if_false, if_neg hts]
      exact joinChars_ne_nil ts (fun s hs => (pathShape_elem false ts h s hs).1) hts

/-- The rendering of a well-shaped path starts with the separator exactly
when the path is rooted. -/
theorem startsSlash_render (r : Bool) (ts : List Seg) (h : pathShape r ts) :
    startsSlash (String.mk (renderClean r ts)) = r := by
  unfold startsSlash
  cases r with
  | true => simp [renderClean]
  | false =>
    cases ts with
    | nil => simp [renderClean]
    | cons s ss =>
      have hs := pathShape_elem false (s :: ss) h s (by simp)
      have hjoin : renderClean false (s :: ss) = joinChars (s :: ss) := by
        unfold renderClean
        simp
      rw [hjoin]
      show decide ((joinChars (s :: ss)).head? = some '/') = false
      rw [head_joinChars s ss hs.1]
      cases s with
      | nil => exact absurd rfl hs.1
      | cons c cs =>
        have hc : c ≠ '/' := by
          intro hc0
          exact hs.2 (by simp [hc0])
        simp [hc]

/-- The join of a well-shaped nonempty path never ends in the
separator. -/
theorem getLast_joinChars (ss : List Seg)
    (h : ∀ s ∈ ss, s ≠ [] ∧ '/' ∉ s) (hne : ss ≠ []) :
    ∃ c, (joinChars ss).getLast? = some c ∧ c ≠ '/' := by
  induction ss with
  | nil => exact absurd rfl hne
  | cons s ss ih =>
    cases ss with
    | nil =>
      have hs := h s (by simp)
      cases hlast : s.getLast? with
      | none => exact absurd (List.getLast?_eq_none_iff.mp hlast) hs.1
      | some c =>
        refine ⟨c, hlast, ?_⟩
        intro hc
        subst hc
        exact hs.2 (List.mem_of_mem_getLast? (by rw [hlast]; rfl))
    | cons s2 ss2 =>
      have hj : joinChars (s :: s2 :: ss2) = s ++ '/' :: joinChars (s2 :: ss2) := rfl
      obtain ⟨c, hc1, hc2⟩ := ih (fun t ht => h t (by simp [ht])) (by simp)
      refine ⟨c, ?_, hc2⟩
      rw [hj, List.getLast?_append]
      have hjoin2 : (joinChars (s2 :: ss2)) ≠ [] :=
        joinChars_ne_nil (s2 :: ss2) (fun t ht => (h t (by simp [ht])).1) (by simp)
      have : ('/' :: joinChars (s2 :: ss2)).getLast? = some c := by
        show (['/'] ++ joinChars (s2 :: ss2)).getLast? = some c
        rw [List.getLast?_append, hc1]
        rfl
      rw [this]
      rfl

/-- In a relative path, a `..` segment is pushed onto a stack that holds
only `..` segments. -/
theorem cstep_dotdot (acc : List Seg) (hacc : ∀ t ∈ acc, t = ['.', '.']) :
    cstep false acc ['.', '.'] = ['.', '.'] :: acc := by
  unfold cstep
  simp only [show ¬(['.', '.'] = ([] : Seg) ∨ ['.', '.'] = ['.']) by simp,
    if_neg, if_pos rfl]
  cases acc with
  | nil => simp
  | cons t acc2 =>
    have ht := hacc t (by simp)
    simp [ht]

/-- A run of `..` segments accumulates in reverse on a stack of `..`
segments of a relative path. -/
theorem cfold_dotdots (ds : List Seg) (acc : List Seg)
    (hds : ∀ s ∈ ds, s = ['.', '.']) (hacc : ∀ t ∈ acc, t = ['.', '.']) :
    cfold false acc ds = ds.reverse ++ acc := by
  induction ds generalizing acc with
  | nil => simp [cfold]
  | cons d ds ih =>
    have hd : d = ['.', '.'] := hds d (by simp)
    have hstep : cfold false acc (d :: ds) = cfold false (cstep false acc d) ds := rfl
    rw [hstep, hd, cstep_dotdot acc hacc,
      ih (['.', '.'] :: acc) (fun s hs => hds s (by simp [hs]))
        (by
          intro t ht
          rcases List.mem_cons.mp ht with h0 | h0
          · exact h0
          · exact hacc t h0)]
    simp

/-- Re-cleaning the rendering of a well-shaped path gives the path
back. -/
theorem cleanSegsCore_render (r : Bool) (ts : List Seg) (h : pathShape r ts) :
    cleanSegsCore r (renderClean r ts) = ts := by
  cases r with
  | true =>
    have hts : renderClean true ts = '/' :: joinChars ts := by
      unfold renderClean
      simp
    rw [hts]
    unfold cleanSegsCore
    have hsplit : splitSegs ('/' :: joinChars ts) = [] :: splitSegs (joinChars ts) := by
      unfold splitSegs
      simp
      cases hj : joinChars ts <;> simp [splitSegs]
    rw [hsplit]
    by_cases hnil : ts = []
    · subst hnil
      simp [joinChars, splitSegs, cfold, cstep]
    · rw [splitSegs_joinChars ts (pathShape_elem true ts h) hnil]
      have hstep : cfold true [] ([] :: ts) = cfold true (cstep true [] []) ts := rfl
      rw [hstep]
      have hskip : cstep true [] ([] : Seg) = [] := by simp [cstep]
      rw [hskip, cfold_good true ts [] (pathShape_rooted_good ts h)]
      simp
  | false =>
    by_cases hnil : ts = []
    · subst hnil
      have hts : renderClean false ([] : List Seg) = ['.'] := by
        unfold renderClean
        simp
      rw [hts]
      unfold cleanSegsCore
      simp [splitSegs, cfold, cstep]
    · have hts : renderClean false ts = joinChars ts := by
        unfold renderClean
        simp [hnil]
      rw [hts]
      unfold cleanSegsCore
      rw [splitSegs_joinChars ts (pathShape_elem false ts h) hnil]
      obtain ⟨ds, gs, hts2, hds, hgs, _⟩ := h
      rw [hts2, cfold_append, cfold_dotdots ds [] hds (by simp),
        cfold_good false gs _ hgs]
      simp

/-- Re-cleaning the rendered string of a well-shaped path gives the path
back. -/
theorem cleanSegsOf_render (r : Bool) (ts : List Seg) (h : pathShape r ts) :
    cleanSegsOf (String.mk (renderClean r ts)) = ts := by
  unfold cleanSegsOf
  rw [startsSlash_render r ts h]
  exact cleanSegsCore_render r ts h

/-- A string with an empty character list is the empty string. -/
theorem eq_empty_of_toList_nil (p : String) (h : p.toList = []) : p = "" := by
  cases p with
  | mk d =>
    have h1 : d = [] := h
    rw [h1]

/-- Appending a trailing separator does not change the cleaned path. -/
theorem clean_append_slash (p : String) (hne : p ≠ "") :
    clean (p ++ "/") = clean p := by
  have hp : p.toList ≠ [] := fun h0 => hne (eq_empty_of_toList_nil p h0)
  have hdata : (p ++ "/").toList = p.toList ++ ['/'] := by
    show (p ++ "/").data = p.data ++ ['/']
    rw [String.data_append]
  have hne2 : p ++ "/" ≠ "" := by
    intro h
    have h0 : (p ++ "/").toList = [] := by rw [h]; rfl
    rw [hdata] at h0
    simp at h0
  have hstart : startsSlash (p ++ "/") = startsSlash p := by
    unfold startsSlash
    rw [hdata, List.head?_append]
    cases hh : p.toList with
    | nil => exact absurd hh hp
    | cons c cs => rfl
  unfold clean
  rw [if_neg hne2, if_neg hne, hstart]
  congr 1
  congr 1
  unfold cleanSegsCore
  rw [hdata]
  have hsplit : splitSegs (p.toList ++ ['/']) = splitSegs p.toList ++ [[]] := by
    have h0 := splitSegs_append_sep p.toList []
    simpa [splitSegs] using h0
  rw [hsplit, cfold_append]
  have hskip : ∀ (r : Bool) (acc : List Seg), cfold r acc [[]] = acc := by
    intro r acc
    simp [cfold, cstep]
  rw [hskip]

/-- The character list of a string is its underlying data. -/
theorem toList_eq_data (s : String) : s.toList = s.data := rfl

/-- Rebuilding a string from its data gives the string back. -/
theorem mk_data (s : String) : String.mk s.data = s := rfl

/-- Splitting after a leading separator. -/
theorem splitSegs_cons_slash (cs : List Char) :
    splitSegs ('/' :: cs) = [] :: splitSegs cs := by
  cases cs <;> simp [splitSegs]

/-- Appending normal segments preserves the path shape. -/
theorem pathShape_append_good (r : Bool) (ts S : List Seg)
    (h : pathShape r ts) (hS : ∀ s ∈ S, goodSeg s) :
    pathShape r (ts ++ S) := by
  obtain ⟨ds, gs, h1, h2, h3, h4⟩ := h
  refine ⟨ds, gs ++ S, by rw [h1, List.append_assoc], h2, ?_, h4⟩
  intro s hs
  rcases List.mem_append.mp hs with h0 | h0
  · exact h3 s h0
  · exact hS s h0

/-- The slash-trimmed, root-rewritten, cleaned request path of a rooted
raw path is the rendering of a nonempty list of normal segments. -/
theorem trimmedPath_decomp (raw : String) (hroot : startsSlash raw = true) :
    ∃ S, S ≠ [] ∧ (∀ s ∈ S, goodSeg s) ∧
      trimmedPath raw = String.mk ('/' :: joinChars S) := by
  have hne : raw ≠ "" := by
    intro h0
    rw [h0] at hroot
    exact absurd hroot (by decide)
  have hclean : clean raw =
      String.mk (renderClean true (cleanSegsCore true raw.toList)) := by
    unfold clean
    rw [if_neg hne, hroot]
  have hshape := pathShape_cleanSegsCore true raw.toList
  have hgood := pathShape_rooted_good _ hshape
  by_cases hzero : cleanSegsCore true raw.toList = []
  · have hcr : clean raw = "/" := by
      rw [hclean, hzero]
      decide
    refine ⟨[['i', 'n', 'd', 'e', 'x', '.', 'h', 't', 'm', 'l']], by simp, ?_, ?_⟩
    · intro s hs
      simp at hs
      subst hs
      decide
    · unfold trimmedPath cleanedPath
      rw [hcr]
      decide
  · have hjoin_ne : joinChars (cleanSegsCore true raw.toList) ≠ [] :=
      joinChars_ne_nil _ (fun s hs => (hgood s hs).1) hzero
    have hrender : renderClean true (cleanSegsCore true raw.toList) =
        '/' :: joinChars (cleanSegsCore true raw.toList) := by
      unfold renderClean
      simp
    have hcr : clean raw ≠ "/" := by
      rw [hclean]
      intro h0
      have h1 := congrArg String.data h0
      rw [hrender] at h1
      simp at h1
      exact hjoin_ne h1
    have hlast : hasTrailingSlash (clean raw) = false := by
      unfold hasTrailingSlash
      rw [hclean, toList_eq_data]
      show decide ((renderClean true (cleanSegsCore true raw.toList)).getLast? =
        some '/') = false
      rw [hrender]
      obtain ⟨c, hc1, hc2⟩ := getLast_joinChars _
        (fun s hs => ⟨(hgood s hs).1, (hgood s hs).2.2.2⟩) hzero
      rw [show ('/' :: joinChars (cleanSegsCore true raw.toList)) =
        ['/'] ++ joinChars (cleanSegsCore true raw.toList) from rfl,
        List.getLast?_append, hc1]
      simp [hc2]
    refine ⟨cleanSegsCore true raw.toList, hzero, hgood, ?_⟩
    unfold trimmedPath cleanedPath
    rw [if_neg hcr]
    rw [if_neg (by
      intro h0
      rw [hlast] at h0
      exact absurd h0.2 (by decide))]
    rw [hclean, hrender]

/-- Candidate A decomposes as the rendering of the cleaned root segments
extended by the nonempty normal segments of the request path: path
cleaning before the join confines every request inside the root. -/
theorem candA_decomp (cfg : Config) (raw : String)
    (hroot : startsSlash raw = true) :
    ∃ (r : Bool) (T S : List Seg), S ≠ [] ∧ (∀ s ∈ S, goodSeg s) ∧
      pathShape r T ∧ candA cfg raw = String.mk (renderClean r T) ∧
      T = cleanSegsOf cfg.rootDir ++ S := by
  obtain ⟨S, hSne, hSgood, htrim⟩ := trimmedPath_decomp raw hroot
  have hshapeS : pathShape true S := ⟨[], S, rfl, by simp, hSgood, fun _ => rfl⟩
  have hbne : String.mk ('/' :: joinChars S) ≠ "" := by
    intro h0
    have h1 := congrArg String.data h0
    simp at h1
  by_cases hr0 : cfg.rootDir = ""
  · refine ⟨true, S, S, hSne, hSgood, hshapeS, ?_, ?_⟩
    · unfold candA
      rw [htrim, hr0]
      unfold fpJoin
      rw [if_neg (by simp [hbne]), if_pos rfl]
      unfold clean
      rw [if_neg hbne]
      have hstart : startsSlash (String.mk ('/' :: joinChars S)) = true := by
        simp [startsSlash]
      rw [hstart]
      have hcore : cleanSegsCore true (String.mk ('/' :: joinChars S)).toList = S := by
        have h0 : (String.mk ('/' :: joinChars S)).toList = renderClean true S := by
          show ('/' :: joinChars S) = renderClean true S
          unfold renderClean
          simp
        rw [h0]
        exact cleanSegsCore_render true S hshapeS
      rw [hcore]
    · rw [hr0]
      rw [show cleanSegsOf "" = [] from by decide]
      simp
  · have hrootl : cfg.rootDir.data ≠ [] := fun h0 =>
      hr0 (eq_empty_of_toList_nil _ h0)
    have hdataW : (cfg.rootDir ++ "/" ++ String.mk ('/' :: joinChars S)).data =
        cfg.rootDir.data ++ '/' :: '/' :: joinChars S := by
      rw [String.data_append, String.data_append,
        show ("/" : String).data = ['/'] from rfl]
      simp
    have hWne : cfg.rootDir ++ "/" ++ String.mk ('/' :: joinChars S) ≠ "" := by
      intro h0
      have h1 := congrArg String.data h0
      rw [hdataW, show ("" : String).data = [] from rfl] at h1
      simp at h1
    refine ⟨startsSlash cfg.rootDir, cleanSegsOf cfg.rootDir ++ S, S, hSne,
      hSgood, ?_, ?_, rfl⟩
    · exact pathShape_append_good _ _ S (pathShape_cleanSegsCore _ _) hSgood
    · unfold candA
      rw [htrim]
      unfold fpJoin
      rw [if_neg (by
          intro h0
          exact hr0 h0.1),
        if_neg hr0, if_neg hbne]
      unfold clean
      rw [if_neg hWne]
      have hstartW : startsSlash (cfg.rootDir ++ "/" ++ String.mk ('/' :: joinChars S)) =
          startsSlash cfg.rootDir := by
        unfold startsSlash
        rw [toList_eq_data, toList_eq_data, hdataW, List.head?_append]
        cases hh : cfg.rootDir.data with
        | nil => exact absurd hh hrootl
        | cons c cs => rfl
      rw [hstartW]
      congr 1
      unfold cleanSegsCore
      rw [toList_eq_data, hdataW,
        show (cfg.rootDir.data ++ '/' :: '/' :: joinChars S) =
          cfg.rootDir.data ++ '/' :: ('/' :: joinChars S) from rfl,
        splitSegs_append_sep, splitSegs_cons_slash,
        splitSegs_joinChars S
          (fun s hs => ⟨(hSgood s hs).1, (hSgood s hs).2.2.2⟩) hSne,
        cfold_append]
      rw [show cfold (startsSlash cfg.rootDir)
            (cfold (startsSlash cfg.rootDir) [] (splitSegs cfg.rootDir.data))
            ([] :: S) =
          cfold (startsSlash cfg.rootDir)
            (cstep (startsSlash cfg.rootDir)
              (cfold (startsSlash cfg.rootDir) [] (splitSegs cfg.rootDir.data)) [])
            S from rfl,
        show cstep (startsSlash cfg.rootDir)
            (cfold (startsSlash cfg.rootDir) [] (splitSegs cfg.rootDir.data)) [] =
          cfold (startsSlash cfg.rootDir) [] (splitSegs cfg.rootDir.data) from by
            simp [cstep],
        cfold_good _ S _ hSgood, List.reverse_append, List.reverse_reverse]
      unfold cleanSegsOf cleanSegsCore
      rw [toList_eq_data]

/-- Appending to the last segment of a nonempty list keeps it
nonempty. -/
theorem appendLast_ne_nil (ext : List Char) (T : List Seg) (hT : T ≠ []) :
    appendLast ext T ≠ [] := by
  cases T with
  | nil => exact absurd rfl hT
  | cons s ss => cases ss <;> simp [appendLast]

/-- Appending characters after a join appends them to the last
segment. -/
theorem joinChars_append_ext (ext : List Char) (T : List Seg) (hT : T ≠ []) :
    joinChars T ++ ext = joinChars (appendLast ext T) := by
  induction T with
  | nil => exact absurd rfl hT
  | cons s ss ih =>
    cases ss with
    | nil => rfl
    | cons s2 ss2 =>
      have h1 : joinChars (s :: s2 :: ss2) = s ++ '/' :: joinChars (s2 :: ss2) := rfl
      have h2 : appendLast ext (s :: s2 :: ss2) =
          s :: appendLast ext (s2 :: ss2) := rfl
      rw [h1, h2]
      have h3 : appendLast ext (s2 :: ss2) ≠ [] :=
        appendLast_ne_nil ext _ (by simp)
      cases hX : appendLast ext (s2 :: ss2) with
      | nil => exact absurd hX h3
      | cons x xs =>
        have h4 : joinChars (s :: x :: xs) = s ++ '/' :: joinChars (x :: xs) := rfl
        rw [h4, List.append_assoc]
        congr 1
        have h5 := ih (by simp)
        rw [hX] at h5
        rw [show ('/' :: joinChars (s2 :: ss2)) ++ ext =
          '/' :: (joinChars (s2 :: ss2) ++ ext) from rfl, h5]

/-- Appending to the last segment commutes with a front extension. -/
theorem appendLast_append_left (ext : List Char) (ts ss : List Seg)
    (hss : ss ≠ []) :
    appendLast ext (ts ++ ss) = ts ++ appendLast ext ss := by
  induction ts with
  | nil => rfl
  | cons t ts ih =>
    have h1 : (t :: ts) ++ ss = t :: (ts ++ ss) := rfl
    rw [h1]
    have h2 : ts ++ ss ≠ [] := by
      intro h0
      exact hss (List.append_eq_nil.mp h0).2
    cases hX : ts ++ ss with
    | nil => exact absurd hX h2
    | cons x xs =>
      have h3 : appendLast ext (t :: x :: xs) = t :: appendLast ext (x :: xs) := rfl
      rw [h3, ← hX, ih]
      rfl

/-- A normal segment stays normal with `.html` appended. -/
theorem goodSeg_append_html (s : Seg) (h : goodSeg s) :
    goodSeg (s ++ ['.', 'h', 't', 'm', 'l']) := by
  obtain ⟨h1, _, _, h4⟩ := h
  refine ⟨by simp, ?_, ?_, ?_⟩
  · intro h0
    have hlen := congrArg List.length h0
    simp at hlen
  · intro h0
    have hlen := congrArg List.length h0
    simp at hlen
  · intro h0
    rcases List.mem_append.mp h0 with h5 | h5
    · exact h4 h5
    · simp at h5

/-- Normal segments stay normal when `.html` is appended to the last. -/
theorem appendLast_good_html (gs : List Seg) (h : ∀ s ∈ gs, goodSeg s) :
    ∀ s ∈ appendLast ['.', 'h', 't', 'm', 'l'] gs, goodSeg s := by
  induction gs with
  | nil =>
    intro s hs
    simp [appendLast] at hs
  | cons g gs ih =>
    cases gs with
    | nil =>
      intro s hs
      simp [appendLast] at hs
      subst hs
      exact goodSeg_append_html g (h g (by simp))
    | cons g2 gs2 =>
      intro s hs
      have h1 : appendLast ['.', 'h', 't', 'm', 'l'] (g :: g2 :: gs2) =
          g :: appendLast ['.', 'h', 't', 'm', 'l'] (g2 :: gs2) := rfl
      rw [h1] at hs
      rcases List.mem_cons.mp hs with h0 | h0
      · rw [h0]
        exact h g (by simp)
      · exact ih (fun t ht => h t (by simp [ht])) s h0

/-- A well-shaped path that ends in normal segments has a nonempty
normal-segment suffix in its shape decomposition. -/
theorem pathShape_good_last (r : Bool) (T W S : List Seg)
    (h : pathShape r T) (hTW : T = W ++ S) (hSne : S ≠ [])
    (hSgood : ∀ s ∈ S, goodSeg s) :
    ∃ ds gs, T = ds ++ gs ∧ (∀ s ∈ ds, s = ['.', '.']) ∧
      (∀ s ∈ gs, goodSeg s) ∧ (r = true → ds = []) ∧ gs ≠ [] := by
  obtain ⟨ds, gs, h1, h2, h3, h4⟩ := h
  refine ⟨ds, gs, h1, h2, h3, h4, ?_⟩
  intro hgs0
  subst hgs0
  cases S with
  | nil => exact hSne rfl
  | cons s S2 =>
    have hsT : s ∈ T := by
      rw [hTW]
      simp
    rw [h1] at hsT
    simp at hsT
    exact (hSgood s (by simp)).2.2.1 (h2 s hsT)

/-- Rendering after appending to the last segment appends the characters
to the rendered path. -/
theorem renderClean_appendLast (r : Bool) (T : List Seg)
    (ext : List Char) (hT : T ≠ []) :
    renderClean r T ++ ext = renderClean r (appendLast ext T) := by
  have h1 : appendLast ext T ≠ [] := appendLast_ne_nil ext T hT
  cases r with
  | true =>
    show ('/' :: joinChars T) ++ ext = '/' :: joinChars (appendLast ext T)
    rw [List.cons_append, joinChars_append_ext ext T hT]
  | false =>
    unfold renderClean
    simp only [Bool.false_eq_true, if_false, if_neg hT, if_neg h1]
    exact joinChars_append_ext ext T hT

/-- The optional head of a nonempty list absorbs an alternative. -/
theorem head_or_of_ne_nil {α : Type} (l : List α) (x : Option α)
    (h : l ≠ []) : l.head?.or x = l.head? := by
  cases l with
  | nil => exact absurd rfl h
  | cons a as => rfl

/-- Candidate A lies within the root. -/
theorem withinRoot_candA (cfg : Config) (raw : String)
    (hroot : startsSlash raw = true) :
    withinRoot cfg.rootDir (candA cfg raw) := by
  obtain ⟨r, T, S, hSne, hSgood, hshape, hcA, hT⟩ := candA_decomp cfg raw hroot
  exact ⟨S, by rw [hcA, cleanSegsOf_render r T hshape, hT]⟩

/-- Candidate B lies within the root. -/
theorem withinRoot_candB (cfg : Config) (raw : String)
    (hroot : startsSlash raw = true) :
    withinRoot cfg.rootDir (candB cfg raw) := by
  obtain ⟨r, T, S, hSne, hSgood, hshape, hcA, hT⟩ := candA_decomp cfg raw hroot
  have hTne : T ≠ [] := by
    intro h0
    rw [h0] at hT
    exact hSne (List.append_eq_nil.mp hT.symm).2
  have hdataA : (candA cfg raw).data = renderClean r T := congrArg String.data hcA
  have hdataB : (candB cfg raw).data =
      renderClean r T ++ ['.', 'h', 't', 'm', 'l'] := by
    unfold candB
    rw [String.data_append, hdataA]
  have hB : candB cfg raw =
      String.mk (renderClean r (appendLast ['.', 'h', 't', 'm', 'l'] T)) := by
    rw [← mk_data (candB cfg raw), hdataB, renderClean_appendLast r T _ hTne]
  obtain ⟨ds, gs, h1, h2, h3, h4, hgsne⟩ :=
    pathShape_good_last r T (cleanSegsOf cfg.rootDir) S hshape hT hSne hSgood
  have hshapeB : pathShape r (appendLast ['.', 'h', 't', 'm', 'l'] T) := by
    rw [h1, appendLast_append_left _ ds gs hgsne]
    exact ⟨ds, appendLast ['.', 'h', 't', 'm', 'l'] gs, rfl, h2,
      appendLast_good_html gs h3, h4⟩
  refine ⟨appendLast ['.', 'h', 't', 'm', 'l'] S, ?_⟩
  rw [hB, cleanSegsOf_render r _ hshapeB, hT,
    appendLast_append_left _ _ S hSne]

/-- Candidate C lies within the root. -/
theorem withinRoot_candC (cfg : Config) (raw : String)
    (hroot : startsSlash raw = true) :
    withinRoot cfg.rootDir (candC cfg raw) := by
  obtain ⟨r, T, S, hSne, hSgood, hshape, hcA, hT⟩ := candA_decomp cfg raw hroot
  have hrne : renderClean r T ≠ [] := render_ne_nil r T hshape
  have hdataA : (candA cfg raw).data = renderClean r T := congrArg String.data hcA
  have hAne : candA cfg raw ≠ "" := by
    intro h0
    have h1 := congrArg String.data h0
    rw [hdataA] at h1
    exact hrne h1
  have hdataW : (candA cfg raw ++ "/" ++ "index.html").data =
      renderClean r T ++ '/' :: ['i', 'n', 'd', 'e', 'x', '.', 'h', 't', 'm', 'l'] := by
    rw [String.data_append, String.data_append, hdataA,
      show ("/" : String).data = ['/'] from rfl,
      show ("index.html" : String).data =
        ['i', 'n', 'd', 'e', 'x', '.', 'h', 't', 'm', 'l'] from rfl]
    simp
  have hWne : candA cfg raw ++ "/" ++ "index.html" ≠ "" := by
    intro h0
    have h1 := congrArg String.data h0
    rw [hdataW, show ("" : String).data = [] from rfl] at h1
    simp at h1
  have hsA2 : decide ((renderClean r T).head? = some '/') = r :=
    startsSlash_render r T hshape
  have hstartW : startsSlash (candA cfg raw ++ "/" ++ "index.html") = r := by
    unfold startsSlash
    rw [toList_eq_data, hdataW, List.head?_append, head_or_of_ne_nil _ _ hrne]
    exact hsA2
  have hST : cfold r [] (splitSegs (renderClean r T)) = T.reverse := by
    have h0 := cleanSegsCore_render r T hshape
    unfold cleanSegsCore at h0
    exact (List.reverse_reverse _).symm.trans (congrArg List.reverse h0)
  have hcoreC : cleanSegsCore r (candA cfg raw ++ "/" ++ "index.html").toList =
      T ++ [['i', 'n', 'd', 'e', 'x', '.', 'h', 't', 'm', 'l']] := by
    unfold cleanSegsCore
    rw [toList_eq_data, hdataW, splitSegs_append_sep,
      show splitSegs ['i', 'n', 'd', 'e', 'x', '.', 'h', 't', 'm', 'l'] =
        [['i', 'n', 'd', 'e', 'x', '.', 'h', 't', 'm', 'l']] from by decide,
      cfold_append, hST,
      show cfold r T.reverse [['i', 'n', 'd', 'e', 'x', '.', 'h', 't', 'm', 'l']] =
        cstep r T.reverse ['i', 'n', 'd', 'e', 'x', '.', 'h', 't', 'm', 'l'] from rfl,
      cstep_good r _ _ (by decide)]
    simp
  have hshapeC : pathShape r
      (T ++ [['i', 'n', 'd', 'e', 'x', '.', 'h', 't', 'm', 'l']]) := by
    refine pathShape_append_good r T _ hshape ?_
    intro s hs
    simp at hs
    rw [hs]
    decide
  have hC : candC cfg raw = String.mk (renderClean r
      (T ++ [['i', 'n', 'd', 'e', 'x', '.', 'h', 't', 'm', 'l']])) := by
    unfold candC fpJoin
    rw [if_neg (fun h0 => hAne h0.1), if_neg hAne,
      if_neg (by decide : ¬("index.html" : String) = "")]
    unfold clean
    rw [if_neg hWne, hstartW, hcoreC]
  refine ⟨S ++ [['i', 'n', 'd', 'e', 'x', '.', 'h', 't', 'm', 'l']], ?_⟩
  rw [hC, cleanSegsOf_render r _ hshapeC, hT, List.append_assoc]

/-- Every probed path is one of the three candidates. -/
theorem probes_sub (cfg : Config) (fs : FileSystem) (raw : String) :
    ∀ c ∈ (serveHTTPT cfg fs raw).probes,
      c = candA cfg raw ∨ c = candB cfg raw ∨ c = candC cfg raw := by
  intro c hc
  unfold serveHTTPT at hc
  dsimp only at hc
  split at hc
  · simp at hc
    exact Or.inl hc
  · unfold probesUpToB at hc
    by_cases hB : condB cfg raw = true
    · simp [hB] at hc
      tauto
    · simp [hB] at hc
      tauto
  · unfold probesAll probesUpToB at hc
    by_cases hB : condB cfg raw = true <;>
      by_cases hS : hasTrailingSlash raw = true <;>
      simp [hB, hS] at hc <;> tauto
  · unfold probesAll probesUpToB at hc
    by_cases hB : condB cfg raw = true <;>
      by_cases hS : hasTrailingSlash raw = true <;>
      simp [hB, hS] at hc <;> tauto

/-- `tryServeFile` writes the rendered 200 response exactly when the path
is a servable regular file, and nothing otherwise. -/
theorem tryServeFile_fst (cfg : Config) (fs : FileSystem) (p : String) :
    (tryServeFile cfg fs p).1 =
      if servable fs p then some (renderFound fs p) else none := by
  unfold tryServeFile servable
  cases h : fs.stat p with
  | ok isDir =>
    cases isDir
    · by_cases ho : fs.openOk p = true
      · by_cases hc : fs.copyOk p = true <;> simp [ho, hc]
      · simp [ho]
    · simp
  | notExist => simp
  | otherErr => simp

/-- Any response produced by a successful `tryServeFile` has status 200. -/
theorem tryServeFile_some_status (cfg : Config) (fs : FileSystem) (p : String)
    (r : Response) (h : (tryServeFile cfg fs p).1 = some r) : r.status = 200 := by
  rw [tryServeFile_fst] at h
  by_cases hs : servable fs p = true
  · simp [hs] at h
    rw [← h]
    rfl
  · simp [hs] at h

/-- C2: For every input path and every configuration, the response status
`ServeHTTP` writes is either 200 or 404; in particular it is never a 3xx
status and no redirect is ever issued. -/
theorem serveHTTP_status_200_or_404 (cfg : Config) (fs : FileSystem) (raw : String) :
    (serveHTTP cfg fs raw).status = 200 ∨ (serveHTTP cfg fs raw).status = 404 := by
  unfold serveHTTP serveHTTPT
  dsimp only
  split
  · rename_i r heq
    exact Or.inl (tryServeFile_some_status cfg fs (candA cfg raw) r heq)
  · rename_i r h1 heq
    unfold step2 at heq
    by_cases hB : condB cfg raw = true
    · simp [hB] at heq
      exact Or.inl (tryServeFile_some_status cfg fs (candB cfg raw) r heq)
    · simp [hB] at heq
  · rename_i r h1 h2 heq
    unfold step3 at heq
    by_cases hS : hasTrailingSlash raw = true
    · simp [hS] at heq
      exact Or.inl (tryServeFile_some_status cfg fs (candC cfg raw) r heq)
    · simp [hS] at heq
  · unfold notFoundResponse
    cases cfg.notFoundHandler <;> simp

/-- C1 (counterexample): with only `/root/nested/index.html` on disk (no
`/root/nested.html`) and a request for `/nested` (no trailing slash), the
resolution order exactly as the claim states it — candidate C carrying no
guard — serves the directory index, but `ServeHTTP` returns 404. -/
theorem serveHTTP_ne_claimC1_order :
    serveHTTP cfgNested fsNested "/nested" ≠
      renderResolution cfgNested fsNested "/nested"
        (resolveClaimC1 cfgNested fsNested "/nested") := by decide

/-- C1 (amended): `ServeHTTP` resolves by trying, in order, candidate A
(the cleaned, root-rewritten, slash-trimmed path joined onto the root),
candidate B (A + ".html", only when extension appending is enabled and the
cleaned path has no extension), and candidate C (`index.html` joined under
A, only when the original raw request path ends in `/`), serving the first
candidate that is an existing regular file and opens; if none is served it
returns the not-found outcome. -/
theorem serveHTTP_follows_amended_order (cfg : Config) (fs : FileSystem) (raw : String) :
    serveHTTP cfg fs raw =
      renderResolution cfg fs raw (resolveAmendedC1 cfg fs raw) := by
  unfold serveHTTP serveHTTPT resolveAmendedC1 step2 step3
  by_cases hA : servable fs (candA cfg raw) = true
  · simp [tryServeFile_fst, hA, renderResolution]
  · by_cases hB : condB cfg raw = true
    · by_cases hsB : servable fs (candB cfg raw) = true
      · simp [tryServeFile_fst, hA, hB, hsB, renderResolution]
      · by_cases hS : hasTrailingSlash raw = true
        · by_cases hsC : servable fs (candC cfg raw) = true <;>
            simp [tryServeFile_fst, hA, hB, hsB, hS, hsC, renderResolution]
        · simp [tryServeFile_fst, hA, hB, hsB, hS, renderResolution]
    · by_cases hS : hasTrailingSlash raw = true
      · by_cases hsC : servable fs (candC cfg raw) = true <;>
          simp [tryServeFile_fst, hA, hB, hS, hsC, renderResolution]
      · simp [tryServeFile_fst, hA, hB, hS, renderResolution]

/-- C10: once `os.Stat` reports a regular file and `os.Open` succeeds,
`tryServeFile` reports success no matter whether the body copy succeeds;
consequently when candidate A is served no later candidate is probed, and
a 404 response implies every probed candidate failed. -/
theorem tryServeFile_true_regardless_of_copy :
    (∀ (cfg : Config) (fs : FileSystem) (p : String),
      fs.stat p = .ok false → fs.openOk p = true →
      (tryServeFile cfg fs p).1 = some (renderFound fs p)) ∧
    (∀ (cfg : Config) (fs : FileSystem) (raw : String) (r : Response),
      (tryServeFile cfg fs (candA cfg raw)).1 = some r →
      (serveHTTPT cfg fs raw).probes = [candA cfg raw] ∧
        (serveHTTPT cfg fs raw).response = r) ∧
    (∀ (cfg : Config) (fs : FileSystem) (raw : String),
      (serveHTTP cfg fs raw).status = 404 →
      ∀ p ∈ (serveHTTPT cfg fs raw).probes, (tryServeFile cfg fs p).1 = none) := by
  refine ⟨?_, ?_, ?_⟩
  · intro cfg fs p h1 h2
    rw [tryServeFile_fst]
    simp [servable, h1, h2]
  · intro cfg fs raw r h
    unfold serveHTTPT
    simp only [h]
    exact ⟨trivial, trivial⟩
  · intro cfg fs raw h404 p hp
    unfold serveHTTP at h404
    unfold serveHTTPT at h404 hp
    dsimp only at h404 hp
    cases e1 : (tryServeFile cfg fs (candA cfg raw)).1 with
    | some r1 =>
      simp only [e1] at h404
      have h200 := tryServeFile_some_status cfg fs (candA cfg raw) r1 e1
      omega
    | none =>
      simp only [e1] at h404 hp
      cases e2 : (step2 cfg fs raw).1 with
      | some r2 =>
        simp only [e2] at h404
        unfold step2 at e2
        by_cases hB : condB cfg raw = true
        · simp [hB] at e2
          have h200 := tryServeFile_some_status cfg fs (candB cfg raw) r2 e2
          omega
        · simp [hB] at e2
      | none =>
        simp only [e2] at h404 hp
        cases e3 : (step3 cfg fs raw).1 with
        | some r3 =>
          simp only [e3] at h404
          unfold step3 at e3
          by_cases hS : hasTrailingSlash raw = true
          · simp [hS] at e3
            have h200 := tryServeFile_some_status cfg fs (candC cfg raw) r3 e3
            omega
          · simp [hS] at e3
        | none =>
          simp only [e3] at hp
          have hBfact : condB cfg raw = true →
              (tryServeFile cfg fs (candB cfg raw)).1 = none := by
            intro hb
            unfold step2 at e2
            simpa [hb] using e2
          have hCfact : hasTrailingSlash raw = true →
              (tryServeFile cfg fs (candC cfg raw)).1 = none := by
            intro hs
            unfold step3 at e3
            simpa [hs] using e3
          unfold probesAll probesUpToB at hp
          by_cases hB : condB cfg raw = true <;>
            by_cases hS : hasTrailingSlash raw = true <;>
            simp [hB, hS] at hp
          · rcases hp with h | h | h
            · rw [h]; exact e1
            · rw [h]; exact hBfact hB
            · rw [h]; exact hCfact hS
          · rcases hp with h | h
            · rw [h]; exact e1
            · rw [h]; exact hBfact hB
          · rcases hp with h | h
            · rw [h]; exact e1
            · rw [h]; exact hCfact hS
          · rw [hp]; exact e1

/-- Witness for C10: the nested index file is stat-able and openable, so
`tryServeFile` reports success there even on a disk where every body copy
fails mid-stream. -/
theorem tryServeFile_true_regardless_of_copy_witness :
    (tryServeFile cfgNested fsNestedCopyFail "/root/nested/index.html").1 =
      some (renderFound fsNestedCopyFail "/root/nested/index.html") :=
  tryServeFile_true_regardless_of_copy.1 cfgNested fsNestedCopyFail
    "/root/nested/index.html" (by decide) (by decide)

/-- Helper: when all three candidates fail to serve, `ServeHTTP` produces
the 404 outcome. -/
theorem serveHTTP_eq_notFoundResponse (cfg : Config) (fs : FileSystem) (raw : String)
    (h1 : (tryServeFile cfg fs (candA cfg raw)).1 = none)
    (h2 : (tryServeFile cfg fs (candB cfg raw)).1 = none)
    (h3 : (tryServeFile cfg fs (candC cfg raw)).1 = none) :
    serveHTTP cfg fs raw = notFoundResponse cfg raw := by
  unfold serveHTTP serveHTTPT
  have e2 : (step2 cfg fs raw).1 = none := by
    unfold step2
    by_cases hB : condB cfg raw = true <;> simp [hB, h2]
  have e3 : (step3 cfg fs raw).1 = none := by
    unfold step3
    by_cases hS : hasTrailingSlash raw = true <;> simp [hS, h3]
  simp only [h1, e2, e3]

/-- C7: when every candidate fails, a configured not-found handler yields
a 404 whose body is exactly the handler applied to the trimmed, normalized
request path; with no handler, the minimal standard 404 body is written. -/
theorem serveHTTP_notFound_body (cfg : Config) (fs : FileSystem) (raw : String)
    (h1 : (tryServeFile cfg fs (candA cfg raw)).1 = none)
    (h2 : (tryServeFile cfg fs (candB cfg raw)).1 = none)
    (h3 : (tryServeFile cfg fs (candC cfg raw)).1 = none) :
    (∀ h, cfg.notFoundHandler = some h →
      serveHTTP cfg fs raw = ⟨404, none, h (trimmedPath raw)⟩) ∧
    (cfg.notFoundHandler = none →
      serveHTTP cfg fs raw =
        ⟨404, some "text/plain; charset=utf-8", "404 page not found\n"⟩) := by
  have key := serveHTTP_eq_notFoundResponse cfg fs raw h1 h2 h3
  constructor
  · intro h hh
    rw [key]
    unfold notFoundResponse
    rw [hh]
  · intro hh
    rw [key]
    unfold notFoundResponse
    rw [hh]

/-- Witness for C7: a request for `/nonexistent` on an empty disk with the
custom handler configured gets a 404 whose body is the handler output for
that exact path. -/
theorem serveHTTP_notFound_body_witness :
    serveHTTP cfgCustom404 fsEmpty "/nonexistent" =
      ⟨404, none, "Custom 404: /nonexistent not found"⟩ := by
  have h := (serveHTTP_notFound_body cfgCustom404 fsEmpty "/nonexistent"
    (by decide) (by decide) (by decide)).1 customNotFound rfl
  rw [h]
  decide

/-- C9: when the raw request path cleans to exactly `/` and every
candidate fails, the configured not-found handler is invoked with
`/index.html`, not `/`. -/
theorem notFound_handler_gets_indexhtml (cfg : Config) (fs : FileSystem)
    (raw : String) (h : String → String)
    (hclean : clean raw = "/")
    (hh : cfg.notFoundHandler = some h)
    (h1 : (tryServeFile cfg fs (candA cfg raw)).1 = none)
    (h2 : (tryServeFile cfg fs (candB cfg raw)).1 = none)
    (h3 : (tryServeFile cfg fs (candC cfg raw)).1 = none) :
    serveHTTP cfg fs raw = ⟨404, none, h "/index.html"⟩ := by
  have ht : trimmedPath raw = "/index.html" := by
    unfold trimmedPath cleanedPath
    simp only [hclean]
    decide
  have key := serveHTTP_eq_notFoundResponse cfg fs raw h1 h2 h3
  rw [key]
  unfold notFoundResponse
  rw [hh, ht]

/-- Witness for C9: a request for `/` on an empty disk with the custom
handler configured gets the handler output for `/index.html`. -/
theorem notFound_handler_gets_indexhtml_witness :
    serveHTTP cfgCustom404 fsEmpty "/" =
      ⟨404, none, "Custom 404: /index.html not found"⟩ := by
  have h := notFound_handler_gets_indexhtml cfgCustom404 fsEmpty "/"
    customNotFound (by decide) rfl (by decide) (by decide) (by decide)
  rw [h]
  decide

/-- C6 (counterexample): with logging enabled and stat of `/root/x`
failing with a non-notExist error (candidate A for the request `/x`), the
log `ServeHTTP` produces contains no error line at all — the claim says
the existence-check error is logged, but only open errors are; resolution
still falls through to 404. -/
theorem statErr_not_logged :
    fsStatErr.stat (candA cfgLog "/x") = .otherErr ∧
    cfgLog.enableLogging = true ∧
    (serveHTTPT cfgLog fsStatErr "/x").log =
      [.handling "/x", .notFound "/x"] ∧
    (serveHTTPT cfgLog fsStatErr "/x").response.status = 404 := by decide

/-- C6 (amended): a filesystem error other than non-existence during the
existence check is treated identically to non-existence for control flow —
`tryServeFile` fails silently, resolution continues through the remaining
candidates exactly as if the path did not exist, and nothing is logged for
it; an error during open also falls through but is logged. -/
theorem fsErrors_fall_through :
    (∀ (cfg : Config) (fs : FileSystem) (p : String),
      fs.stat p = .otherErr → tryServeFile cfg fs p = (none, [])) ∧
    (∀ (cfg : Config) (fs : FileSystem) (p : String) (raw : String),
      fs.stat p = .otherErr →
      serveHTTPT cfg fs raw = serveHTTPT cfg (fs.withStat p .notExist) raw) ∧
    (∀ (cfg : Config) (fs : FileSystem) (p : String),
      fs.stat p = .ok false → fs.openOk p = false →
      tryServeFile cfg fs p = (none, emit cfg (.openErr p))) := by
  refine ⟨?_, ?_, ?_⟩
  · intro cfg fs p h
    unfold tryServeFile
    rw [h]
  · intro cfg fs p raw h
    have htry : ∀ q, tryServeFile cfg (fs.withStat p .notExist) q =
        tryServeFile cfg fs q := by
      intro q
      by_cases hq : q = p
      · subst hq
        have h1 : (fs.withStat q .notExist).stat q = .notExist := by
          unfold FileSystem.withStat
          simp
        unfold tryServeFile
        rw [h, h1]
      · have h1 : (fs.withStat p .notExist).stat q = fs.stat q := by
          unfold FileSystem.withStat
          simp [hq]
        have h2 : renderFound (fs.withStat p .notExist) q = renderFound fs q := rfl
        have h3 : (fs.withStat p .notExist).openOk = fs.openOk := rfl
        have h4 : (fs.withStat p .notExist).copyOk = fs.copyOk := rfl
        unfold tryServeFile
        rw [h1, h2, h3, h4]
    unfold serveHTTPT step2 step3
    simp only [htry]
  · intro cfg fs p h ho
    unfold tryServeFile
    rw [h]
    simp [ho]

/-- Witness for C6 (amended): the stat error at `/root/x` produces no
response and no log line from `tryServeFile`. -/
theorem fsErrors_fall_through_witness :
    tryServeFile cfgLog fsStatErr "/root/x" = (none, []) :=
  fsErrors_fall_through.1 cfgLog fsStatErr "/root/x" (by decide)

/-- C3: the directory-index candidate C is probed only when the original,
pre-normalization request path ends with `/` (when it does not, only
candidates A and possibly B are probed; when it does and the earlier
candidates fail, C is probed); in particular, with only
`nested/index.html` on disk and extension appending enabled, `/nested/`
gets a 200 with the nested page content while `/nested` gets a 404. -/
theorem candC_iff_raw_trailing_slash :
    (∀ (cfg : Config) (fs : FileSystem) (raw : String),
      hasTrailingSlash raw = false →
      (serveHTTPT cfg fs raw).probes = [candA cfg raw] ∨
      (serveHTTPT cfg fs raw).probes = [candA cfg raw, candB cfg raw]) ∧
    (∀ (cfg : Config) (fs : FileSystem) (raw : String),
      hasTrailingSlash raw = true →
      (tryServeFile cfg fs (candA cfg raw)).1 = none →
      (condB cfg raw = true → (tryServeFile cfg fs (candB cfg raw)).1 = none) →
      candC cfg raw ∈ (serveHTTPT cfg fs raw).probes) ∧
    (serveHTTP cfgNested fsNested "/nested/").status = 200 ∧
    (serveHTTP cfgNested fsNested "/nested/").body = "Nested Page" ∧
    (serveHTTP cfgNested fsNested "/nested").status = 404 := by
  refine ⟨?_, ?_, by decide, by decide, by decide⟩
  · intro cfg fs raw hS
    unfold serveHTTPT
    dsimp only
    split
    · exact Or.inl rfl
    · rename_i r h1 heq
      unfold step2 at heq
      by_cases hB : condB cfg raw = true
      · unfold probesUpToB
        simp [hB]
      · simp [hB] at heq
    · rename_i r h1 h2 heq
      unfold step3 at heq
      simp [hS] at heq
    · unfold probesAll probesUpToB
      by_cases hB : condB cfg raw = true <;> simp [hB, hS]
  · intro cfg fs raw hS h1 h2
    have e2 : (step2 cfg fs raw).1 = none := by
      unfold step2
      by_cases hB : condB cfg raw = true
      · simpa [hB] using h2 hB
      · simp [hB]
    unfold serveHTTPT
    dsimp only
    simp only [h1, e2]
    cases e3 : (step3 cfg fs raw).1 <;>
      simp [probesAll, probesUpToB, hS]

/-- Witness for C3: a request for `/nested` (no trailing slash) probes
only candidates A and B. -/
theorem candC_iff_raw_trailing_slash_witness :
    (serveHTTPT cfgNested fsNested "/nested").probes =
      [candA cfgNested "/nested"] ∨
    (serveHTTPT cfgNested fsNested "/nested").probes =
      [candA cfgNested "/nested", candB cfgNested "/nested"] :=
  candC_iff_raw_trailing_slash.1 cfgNested fsNested "/nested" (by decide)

/-- C8: every served response carries the Content-Type determined by the
served path's extension (absent when the extension is unrecognized), and
`getContentType` agrees everywhere with the spec's case-insensitive
extension table. -/
theorem contentType_per_table :
    (∀ (cfg : Config) (fs : FileSystem) (p : String) (r : Response),
      (tryServeFile cfg fs p).1 = some r →
      r.contentType = (if getContentType (fpExt p) = "" then none
                       else some (getContentType (fpExt p)))) ∧
    (∀ e : String, getContentType e = mimeLookup e) := by
  constructor
  · intro cfg fs p r h
    rw [tryServeFile_fst] at h
    by_cases hs : servable fs p = true
    · simp [hs] at h
      rw [← h]
      rfl
    · simp [hs] at h
  · intro e
    unfold getContentType mimeLookup mimeTable
    by_cases h1 : lowerStr e = ".html"
    · simp [h1]
    by_cases h2 : lowerStr e = ".htm"
    · simp [h1, h2]
    by_cases h3 : lowerStr e = ".css"
    · simp [h1, h2, h3]
    by_cases h4 : lowerStr e = ".js"
    · simp [h1, h2, h3, h4]
    by_cases h5 : lowerStr e = ".json"
    · simp [h1, h2, h3, h4, h5]
    by_cases h6 : lowerStr e = ".png"
    · simp [h1, h2, h3, h4, h5, h6]
    by_cases h7 : lowerStr e = ".jpg"
    · simp [h1, h2, h3, h4, h5, h6, h7]
    by_cases h8 : lowerStr e = ".jpeg"
    · simp [h1, h2, h3, h4, h5, h6, h7, h8]
    by_cases h9 : lowerStr e = ".gif"
    · simp [h1, h2, h3, h4, h5, h6, h7, h8, h9]
    by_cases h10 : lowerStr e = ".svg"
    · simp [h1, h2, h3, h4, h5, h6, h7, h8, h9, h10]
    by_cases h11 : lowerStr e = ".xml"
    · simp [h1, h2, h3, h4, h5, h6, h7, h8, h9, h10, h11]
    by_cases h12 : lowerStr e = ".pdf"
    · simp [h1, h2, h3, h4, h5, h6, h7, h8, h9, h10, h11, h12]
    by_cases h13 : lowerStr e = ".txt"
    · simp [h1, h2, h3, h4, h5, h6, h7, h8, h9, h10, h11, h12, h13]
    · simp [h1, h2, h3, h4, h5, h6, h7, h8, h9, h10, h11, h12, h13]

/-- Witness for C8: the upper-case `.CSS` stylesheet is served with
Content-Type `text/css`. -/
theorem contentType_per_table_witness :
    (renderFound fsCss "/style.CSS").contentType = some "text/css" := by
  have h := contentType_per_table.1 cfgNested fsCss "/style.CSS"
    (renderFound fsCss "/style.CSS") (by decide)
  rw [h]
  decide

/-- C4 (counterexample): with only `/root/nested/index.html` on disk,
`/nested/` resolves to a Found outcome (200) while its slashless
counterpart `/nested` yields NotFound (404), so the claimed
trailing-slash equivalence fails in the `p/index.html` case. -/
theorem trailingSlash_equiv_fails :
    fsNested.stat "/root/nested/index.html" = .ok false ∧
    (serveHTTP cfgNested fsNested "/nested/").status = 200 ∧
    (serveHTTP cfgNested fsNested "/nested").status = 404 := by decide

/-- C4 (amended): whenever resolving `p` (no trailing slash) reaches a
Found outcome — in particular whenever `p.html` exists accordingly —
resolving `p/` under the same configuration and filesystem state yields
the identical response; when only `p/index.html` exists, `p/` is Found
while `p` is NotFound. -/
theorem trailingSlash_equiv_on_found (cfg : Config) (fs : FileSystem)
    (p : String)
    (hroot : startsSlash p = true)
    (hnos : hasTrailingSlash p = false)
    (h200 : (serveHTTP cfg fs p).status = 200) :
    serveHTTP cfg fs (p ++ "/") = serveHTTP cfg fs p := by
  have hne : p ≠ "" := by
    intro h
    rw [h] at hroot
    exact absurd hroot (by decide)
  have hclean : clean (p ++ "/") = clean p := clean_append_slash p hne
  have htrim : trimmedPath (p ++ "/") = trimmedPath p := by
    unfold trimmedPath cleanedPath
    rw [hclean]
  have hA : candA cfg (p ++ "/") = candA cfg p := by
    unfold candA
    rw [htrim]
  have hcondB : condB cfg (p ++ "/") = condB cfg p := by
    unfold condB
    rw [htrim]
  have hB : candB cfg (p ++ "/") = candB cfg p := by
    unfold candB
    rw [hA]
  have hstep2 : step2 cfg fs (p ++ "/") = step2 cfg fs p := by
    unfold step2
    rw [hcondB, hB]
  unfold serveHTTP serveHTTPT
  dsimp only
  rw [hA, hstep2]
  cases e1 : (tryServeFile cfg fs (candA cfg p)).1 with
  | some r => simp only [e1]
  | none =>
    cases e2 : (step2 cfg fs p).1 with
    | some r => simp only [e2]
    | none =>
      exfalso
      have e3 : (step3 cfg fs p).1 = none := by
        unfold step3
        simp [hnos]
      have hnf : serveHTTP cfg fs p = notFoundResponse cfg p := by
        unfold serveHTTP serveHTTPT
        dsimp only
        simp only [e1, e2, e3]
      rw [hnf] at h200
      unfold notFoundResponse at h200
      cases hh : cfg.notFoundHandler <;> rw [hh] at h200 <;> simp at h200

/-- Witness for C4 (amended): with `/root/about.html` on disk, `/about`
is Found via the extension-appending fallback, and `/about/` produces the
identical response. -/
theorem trailingSlash_equiv_on_found_witness :
    serveHTTP cfgNested fsAbout ("/about" ++ "/") =
      serveHTTP cfgNested fsAbout "/about" :=
  trailingSlash_equiv_on_found cfgNested fsAbout "/about"
    (by decide) (by decide) (by decide)

/-- C5: for every raw request path beginning with `/`, every candidate
filesystem path the resolver probes (A, B and C) lies within the
configured root directory: path cleaning before the join confines the
cleaned request segments to an extension of the cleaned root segments, so
no `..` traversal can produce a candidate outside RootDir and nothing
outside the root is ever stat-ed, opened or served. -/
theorem probes_within_root (cfg : Config) (fs : FileSystem) (raw : String)
    (hroot : startsSlash raw = true) :
    ∀ c ∈ (serveHTTPT cfg fs raw).probes, withinRoot cfg.rootDir c := by
  intro c hc
  rcases probes_sub cfg fs raw c hc with h | h | h
  · rw [h]
    exact withinRoot_candA cfg raw hroot
  · rw [h]
    exact withinRoot_candB cfg raw hroot
  · rw [h]
    exact withinRoot_candC cfg raw hroot

/-- Witness for C5: the traversal attempt `/../secret` is probed only
inside `/root`. -/
theorem probes_within_root_witness :
    withinRoot cfgNested.rootDir (candA cfgNested "/../secret") :=
  probes_within_root cfgNested fsEmpty "/../secret" (by decide)
    (candA cfgNested "/../secret") (by decide)

end Scribe

section Sanity

open Scribe

example : clean "/a/b/../c/" = "/a/c" := by decide
example : clean "/../x" = "/x" := by decide
example : clean "a/../../b" = "../b" := by decide
example : clean "/" = "/" := by decide
example : clean "" = "." := by decide
example : clean "./" = "." := by decide
example : fpExt "/a/b.css" = ".css" := by decide
example : fpExt "/a.d/b" = "" := by decide
example : fpJoin "/root" "/nested" = "/root/nested" := by decide
example : fpJoin "" "/x" = "/x" := by decide

end Sanity
